import Mathlib

set_option maxHeartbeats 1000000

namespace TorVersions

/-! Shallow embedding of the tor-versions repository (src/main.py,
src/extract_daemon_versions.py, src/calculate_binary_hashes.py).
Python strings are Lean `String`s; the on-disk cache tiers are association
lists from version string to file-name list; network and subprocess
effects are abstracted as explicit oracles passed to the functions. -/

/-- `needle` occurs at the start of `hay` (on character lists). -/
def listStarts : List Char → List Char → Bool
  | [], _ => true
  | _ :: _, [] => false
  | a :: as, b :: bs => a = b && listStarts as bs

/-- `needle` occurs contiguously anywhere in `hay` (on character lists). -/
def listInfix (needle : List Char) : List Char → Bool
  | [] => needle.isEmpty
  | b :: bs => listStarts needle (b :: bs) || listInfix needle bs

/-- Python substring test `needle in hay`. -/
def containsSub (needle hay : String) : Bool :=
  listInfix needle.data hay.data

/-- Python `s.lower()` (the inputs are ASCII file/version names). -/
def toLowerStr (s : String) : String :=
  String.mk (s.data.map Char.toLower)

/-- Python `s.startswith(pre)`. -/
def startsWithStr (s pre : String) : Bool :=
  listStarts pre.data s.data

/-- Python `s.endswith(suf)`. -/
def endsWithStr (s suf : String) : Bool :=
  listStarts suf.data.reverse s.data.reverse

/-- Left-to-right non-overlapping replacement, fuelled by the input length
(each step consumes at least one character, so the fuel never runs out for
a nonempty pattern). -/
def replaceGo (pattern repl : List Char) : Nat → List Char → List Char
  | _, [] => []
  | 0, cs => cs
  | fuel + 1, c :: cs =>
    if listStarts pattern (c :: cs) then
      repl ++ replaceGo pattern repl fuel ((c :: cs).drop pattern.length)
    else
      c :: replaceGo pattern repl fuel cs

/-- Python `s.replace(pattern, replacement)` for a nonempty pattern
(the source only ever replaces ".json"). -/
def replaceStr (s pattern replacement : String) : String :=
  if pattern.data.isEmpty then s
  else String.mk (replaceGo pattern.data replacement.data s.data.length s.data)

/-- Accumulating splitter on '.', used to embed the dotted-numeric regexes. -/
def splitDotGo (cur : List Char) : List Char → List (List Char)
  | [] => [cur.reverse]
  | c :: cs => if c = '.' then cur.reverse :: splitDotGo [] cs else splitDotGo (c :: cur) cs

/-- The dot-separated components of `s`. -/
def splitDot (s : String) : List (List Char) :=
  splitDotGo [] s.data

/-- Accumulator for `re.findall(r'\d+', s)`: collect maximal digit runs. -/
def digitRunsGo (cur : List Char) : List Char → List (List Char)
  | [] => if cur.isEmpty then [] else [cur.reverse]
  | c :: cs =>
    if c.isDigit then digitRunsGo (c :: cur) cs
    else if cur.isEmpty then digitRunsGo [] cs
    else cur.reverse :: digitRunsGo [] cs

/-- Python `int` applied to a nonempty string of decimal digits. -/
def natOfDigits (cs : List Char) : Nat :=
  cs.foldl (fun n c => 10 * n + (c.toNat - 48)) 0

/-- The sort key `list(map(int, re.findall(r'\d+', s)))` used throughout main.py. -/
def versionKey (s : String) : List Nat :=
  (digitRunsGo [] s.data).map natOfDigits

/-- Python's lexicographic comparison of two lists of ints, as a `≤` test. -/
def natListLe : List Nat → List Nat → Bool
  | [], _ => true
  | _ :: _, [] => false
  | a :: as, b :: bs => if a < b then true else if b < a then false else natListLe as bs

/-! ### main.py: constants -/

def BASE_URL : String := "https://archive.torproject.org/tor-package-archive/torbrowser/"

def COMMON_REMOVER_WORDS : List String := [
  "debug", "Debug", "DEBUG",
  "?C=N;O=D", "?C=M;O=A", "?C=S;O=A", "?C=D;O=A",
  "sha256", "SHA256", "Sha256",
  ".asc", ".ASC", ".Asc",
  ".txt", ".TXT", ".Txt",
  "mar-tools", "geckodriver", "src-",
  "/~sysrqb/builds/", "tmp.mar", "index.html%3fC",
  "index.html", "results", "sandbox-",
  "/tor-package-archive/torbrowser/"]

def EBV_REMOVER_WORDS : List String :=
  ["browser", "Browser", "BROWSER"] ++ COMMON_REMOVER_WORDS

def BRV_REMOVER_PREFIXES : List String :=
  ["tor-win32-", "tor-expert-bundle"]

/-! ### main.py: crawl engine (process_versions_efficiently) -/

/-- The three cache tiers on disk: each is a map version ↦ list of file names,
one JSON document per version. -/
structure CrawlFS where
  allCache : List (String × List String)
  exportCache : List (String × List String)
  browserCache : List (String × List String)
deriving DecidableEq

/-- Association-list lookup (models `os.path.exists` + `json.load` of
`<dir>/<version>.json`). -/
def alookup (k : String) : List (String × List String) → Option (List String)
  | [] => none
  | (k', v) :: rest => if k = k' then some v else alookup k rest

/-- Outcome of `safe_request` on a version's directory listing: the anchor
targets extracted by the final PATTERNS regex, or a raised exception. -/
inductive FetchResult where
  | ok (files : List String)
  | err
deriving DecidableEq

/-- Result of running the crawl loop body: the updated filesystem, the
per-run blank accumulators, and the number of directory-listing fetches
issued. -/
structure StepResult where
  fs : CrawlFS
  exportBlanks : List String
  browserBlanks : List String
  fetches : Nat
deriving DecidableEq

/-- Lines 180–193 of main.py: derive the export tier document from the raw
file list, guarded by an existence check, recording the version in the
export blank accumulator when the partition is empty. -/
def exportPass (fs : CrawlFS) (v : String) (cached_files : List String) :
    CrawlFS × List String :=
  if (alookup v fs.exportCache).isSome then (fs, [])
  else
    let export_files := cached_files.filter
      (fun f => !(EBV_REMOVER_WORDS.any (fun w => containsSub w f)))
    if 0 < export_files.length then
      ({ fs with exportCache := (v, export_files) :: fs.exportCache }, [])
    else (fs, [v])

/-- Lines 195–208 of main.py: derive the browser tier document from the raw
file list, guarded by an existence check, recording the version in the
browser blank accumulator when the partition is empty. -/
def browserPass (fs : CrawlFS) (v : String) (cached_files : List String) :
    CrawlFS × List String :=
  if (alookup v fs.browserCache).isSome then (fs, [])
  else
    let browser_files := cached_files.filter
      (fun f => !(BRV_REMOVER_PREFIXES.any (fun w => startsWithStr f w)))
    if 0 < browser_files.length then
      ({ fs with browserCache := (v, browser_files) :: fs.browserCache }, [])
    else (fs, [v])

/-- Lines 180–208 of main.py: both partition passes in sequence. -/
def partitionTiers (fs : CrawlFS) (v : String) (cached_files : List String) :
    CrawlFS × List String × List String :=
  let p1 := exportPass fs v cached_files
  let p2 := browserPass p1.1 v cached_files
  (p2.1, p1.2, p2.2)

/-- One iteration of the loop of `process_versions_efficiently` (lines
132–219 of main.py), for a single version.  The try/except wrapping the
body is reflected in the `.err` branch: the exception raised by
`safe_request` is caught, the version is appended to both blank
accumulators, and the iteration ends. -/
def processVersion (fetch : String → FetchResult) (blank_list : List String)
    (fs : CrawlFS) (v : String) : StepResult :=
  if (alookup v fs.exportCache).isSome && (alookup v fs.browserCache).isSome then
    ⟨fs, [], [], 0⟩
  else
    match alookup v fs.allCache with
    | some cached_files =>
      let p := partitionTiers fs v cached_files
      ⟨p.1, p.2.1, p.2.2, 0⟩
    | none =>
      if v ∈ blank_list then ⟨fs, [v], [v], 0⟩
      else
        match fetch v with
        | .err => ⟨fs, [v], [v], 1⟩
        | .ok files =>
          let cached_files := files.filter
            (fun f => !(COMMON_REMOVER_WORDS.any (fun w => containsSub w f)))
          if cached_files.length = 0 then ⟨fs, [v], [v], 1⟩
          else
            let fs1 : CrawlFS := { fs with allCache := (v, cached_files) :: fs.allCache }
            let p := partitionTiers fs1 v cached_files
            ⟨p.1, p.2.1, p.2.2, 1⟩

/-- `process_versions_efficiently`: fold the per-version body over the
version list, concatenating the blank accumulators in iteration order. -/
def processVersions (fetch : String → FetchResult) (blank_list : List String) :
    CrawlFS → List String → StepResult
  | fs, [] => ⟨fs, [], [], 0⟩
  | fs, v :: rest =>
    let r := processVersion fetch blank_list fs v
    let r' := processVersions fetch blank_list r.fs rest
    ⟨r'.fs, r.exportBlanks ++ r'.exportBlanks, r.browserBlanks ++ r'.browserBlanks,
      r.fetches + r'.fetches⟩

/-- The three cache tiers of the Cache Store. -/
inductive Tier where
  | tAll
  | tExport
  | tBrowser
deriving DecidableEq

/-- The on-disk directory of a given tier. -/
def tierCache (fs : CrawlFS) : Tier → List (String × List String)
  | .tAll => fs.allCache
  | .tExport => fs.exportCache
  | .tBrowser => fs.browserCache

lemma alookup_cons (k v : String) (files : List String)
    (cache : List (String × List String)) :
    alookup k ((v, files) :: cache) = if k = v then some files else alookup k cache := rfl

lemma alookup_insert_preserve {v w : String} {cache : List (String × List String)}
    {files c : List String} (hguard : alookup v cache = none)
    (hw : alookup w cache = some c) :
    alookup w ((v, files) :: cache) = some c := by
  rw [alookup_cons]
  split
  · next h => rw [h] at hw; rw [hguard] at hw; exact absurd hw (by simp)
  · exact hw

lemma exportPass_allCache (fs : CrawlFS) (v : String) (cf : List String) :
    (exportPass fs v cf).1.allCache = fs.allCache := by
  simp only [exportPass]
  split
  · rfl
  · split <;> rfl

lemma exportPass_browserCache (fs : CrawlFS) (v : String) (cf : List String) :
    (exportPass fs v cf).1.browserCache = fs.browserCache := by
  simp only [exportPass]
  split
  · rfl
  · split <;> rfl

lemma exportPass_export_preserve {fs : CrawlFS} {v : String} {cf : List String}
    {w : String} {c : List String} (h : alookup w fs.exportCache = some c) :
    alookup w (exportPass fs v cf).1.exportCache = some c := by
  cases hE : alookup v fs.exportCache with
  | some ef => simpa [exportPass, hE] using h
  | none =>
    simp only [exportPass, hE, Option.isSome_none, Bool.false_eq_true, if_false]
    split
    · exact alookup_insert_preserve hE h
    · exact h

lemma browserPass_allCache (fs : CrawlFS) (v : String) (cf : List String) :
    (browserPass fs v cf).1.allCache = fs.allCache := by
  simp only [browserPass]
  split
  · rfl
  · split <;> rfl

lemma browserPass_exportCache (fs : CrawlFS) (v : String) (cf : List String) :
    (browserPass fs v cf).1.exportCache = fs.exportCache := by
  simp only [browserPass]
  split
  · rfl
  · split <;> rfl

lemma browserPass_browser_preserve {fs : CrawlFS} {v : String} {cf : List String}
    {w : String} {c : List String} (h : alookup w fs.browserCache = some c) :
    alookup w (browserPass fs v cf).1.browserCache = some c := by
  cases hB : alookup v fs.browserCache with
  | some bf => simpa [browserPass, hB] using h
  | none =>
    simp only [browserPass, hB, Option.isSome_none, Bool.false_eq_true, if_false]
    split
    · exact alookup_insert_preserve hB h
    · exact h

lemma partitionTiers_preserve (fs : CrawlFS) (v : String) (cf : List String)
    (t : Tier) (w : String) (c : List String)
    (h : alookup w (tierCache fs t) = some c) :
    alookup w (tierCache (partitionTiers fs v cf).1 t) = some c := by
  cases t with
  | tAll =>
    show alookup w (browserPass (exportPass fs v cf).1 v cf).1.allCache = some c
    rw [browserPass_allCache, exportPass_allCache]
    exact h
  | tExport =>
    show alookup w (browserPass (exportPass fs v cf).1 v cf).1.exportCache = some c
    rw [browserPass_exportCache]
    exact exportPass_export_preserve h
  | tBrowser =>
    show alookup w (browserPass (exportPass fs v cf).1 v cf).1.browserCache = some c
    apply browserPass_browser_preserve
    rw [exportPass_browserCache]
    exact h

lemma processVersion_preserves (fetch : String → FetchResult) (blank_list : List String)
    (fs : CrawlFS) (v : String) (t : Tier) (w : String) (c : List String)
    (h : alookup w (tierCache fs t) = some c) :
    alookup w (tierCache (processVersion fetch blank_list fs v).fs t) = some c := by
  by_cases hEB : ((alookup v fs.exportCache).isSome
      && (alookup v fs.browserCache).isSome) = true
  · simp only [processVersion, if_pos hEB]
    exact h
  · simp only [processVersion, if_neg hEB]
    cases hAll : alookup v fs.allCache with
    | some cached_files =>
      exact partitionTiers_preserve fs v cached_files t w c h
    | none =>
      by_cases hbl : v ∈ blank_list
      · simp only [if_pos hbl]
        exact h
      · simp only [if_neg hbl]
        cases hf : fetch v with
        | err => exact h
        | ok files =>
          by_cases hlen : (files.filter
              (fun f => !(COMMON_REMOVER_WORDS.any (fun w => containsSub w f)))).length = 0
          · simp only [if_pos hlen]
            exact h
          · simp only [if_neg hlen]
            apply partitionTiers_preserve
            cases t with
            | tAll => exact alookup_insert_preserve hAll h
            | tExport => exact h
            | tBrowser => exact h

/-- C1: for every version in the crawl loop, no directory-listing fetch is
issued when both the export and browser tier documents exist, or when the
"all"-tier document exists, or when the version is in the blank list (with
no "all"-tier document, in which case the version is appended to both blank
accumulators); a listing fetch (exactly one) is issued in every other
case. -/
theorem crawl_fetch_iff (fetch : String → FetchResult) (blank_list : List String)
    (fs : CrawlFS) (v : String) :
    ((processVersion fetch blank_list fs v).fetches = 0 ↔
      ((alookup v fs.exportCache).isSome = true ∧ (alookup v fs.browserCache).isSome = true)
      ∨ (alookup v fs.allCache).isSome = true
      ∨ v ∈ blank_list)
    ∧ ((alookup v fs.allCache = none
        ∧ ¬((alookup v fs.exportCache).isSome = true ∧ (alookup v fs.browserCache).isSome = true)
        ∧ v ∈ blank_list)
       → (processVersion fetch blank_list fs v).exportBlanks = [v]
         ∧ (processVersion fetch blank_list fs v).browserBlanks = [v])
    ∧ ((processVersion fetch blank_list fs v).fetches = 0
       ∨ (processVersion fetch blank_list fs v).fetches = 1) := by
  by_cases hEB : ((alookup v fs.exportCache).isSome
      && (alookup v fs.browserCache).isSome) = true
  · have hEB' := Bool.and_eq_true .. |>.mp hEB
    have heq : processVersion fetch blank_list fs v = ⟨fs, [], [], 0⟩ := by
      simp only [processVersion, if_pos hEB]
    rw [heq]
    exact ⟨by simp [hEB'.1, hEB'.2], fun hc => absurd ⟨hEB'.1, hEB'.2⟩ hc.2.1, Or.inl rfl⟩
  · have hEB' : ¬((alookup v fs.exportCache).isSome = true
        ∧ (alookup v fs.browserCache).isSome = true) := by
      rw [← Bool.and_eq_true]; exact hEB
    cases hAll : alookup v fs.allCache with
    | some cached_files =>
      have hf0 : (processVersion fetch blank_list fs v).fetches = 0 := by
        simp only [processVersion, if_neg hEB, hAll]
      refine ⟨by rw [hf0]; simp [hAll], ?_, Or.inl hf0⟩
      intro hc
      exact absurd hc.1 (by simp)
    | none =>
      by_cases hbl : v ∈ blank_list
      · have heq : processVersion fetch blank_list fs v = ⟨fs, [v], [v], 0⟩ := by
          simp only [processVersion, if_neg hEB, hAll, if_pos hbl]
        rw [heq]
        exact ⟨by simp [hbl], fun _ => ⟨rfl, rfl⟩, Or.inl rfl⟩
      · have hrhs : ¬(((alookup v fs.exportCache).isSome = true
            ∧ (alookup v fs.browserCache).isSome = true)
            ∨ (none : Option (List String)).isSome = true ∨ v ∈ blank_list) := by
          rintro (hc | hc | hc)
          · exact hEB' hc
          · simp at hc
          · exact hbl hc
        cases hf : fetch v with
        | err =>
          have heq : processVersion fetch blank_list fs v = ⟨fs, [v], [v], 1⟩ := by
            simp only [processVersion, if_neg hEB, hAll, if_neg hbl, hf]
          rw [heq]
          exact ⟨iff_of_false (by simp) hrhs, fun hc => absurd hc.2.2 hbl, Or.inr rfl⟩
        | ok files =>
          have hf1 : (processVersion fetch blank_list fs v).fetches = 1 := by
            by_cases hlen : (files.filter
                (fun f => !(COMMON_REMOVER_WORDS.any (fun w => containsSub w f)))).length = 0
            · simp only [processVersion, if_neg hEB, hAll, if_neg hbl, hf, if_pos hlen]
            · simp only [processVersion, if_neg hEB, hAll, if_neg hbl, hf, if_neg hlen]
          refine ⟨by rw [hf1]; exact iff_of_false (by simp) hrhs,
            fun hc => absurd hc.2.2 hbl, Or.inr hf1⟩

/-- Witness for C1 at a concrete input: a version in the blank list with no
"all"-tier document and no export/browser documents gets zero fetches and is
appended to both blank accumulators. -/
theorem crawl_fetch_iff_witness :
    (processVersion (fun _ => FetchResult.err) ["9.0"] ⟨[], [], []⟩ "9.0").exportBlanks = ["9.0"]
    ∧ (processVersion (fun _ => FetchResult.err) ["9.0"] ⟨[], [], []⟩ "9.0").browserBlanks
        = ["9.0"] :=
  (crawl_fetch_iff (fun _ => FetchResult.err) ["9.0"] ⟨[], [], []⟩ "9.0").2.1
    ⟨rfl, by decide, by decide⟩

/-- C2: the crawl engine never overwrites an existing tier document: any
tier document present before a run of `process_versions_efficiently` is
still present with the same contents afterwards, for every tier and every
version. -/
theorem tier_write_once (fetch : String → FetchResult) (blank_list : List String)
    (versions : List String) (fs : CrawlFS) (t : Tier) (w : String) (c : List String)
    (h : alookup w (tierCache fs t) = some c) :
    alookup w (tierCache (processVersions fetch blank_list fs versions).fs t) = some c := by
  induction versions generalizing fs with
  | nil => exact h
  | cons v rest ih =>
    exact ih _ (processVersion_preserves fetch blank_list fs v t w c h)

/-- Witness for C2 at a concrete input: an existing export document for
version 9.0 survives a run over ["9.0", "10.0"] unchanged. -/
theorem tier_write_once_witness :
    alookup "9.0"
      (tierCache (processVersions (fun _ => FetchResult.ok ["tor-a.tar.gz"]) []
        ⟨[], [("9.0", ["keep-me.tar.gz"])], []⟩ ["9.0", "10.0"]).fs Tier.tExport)
      = some ["keep-me.tar.gz"] :=
  tier_write_once (fun _ => FetchResult.ok ["tor-a.tar.gz"]) [] ["9.0", "10.0"]
    ⟨[], [("9.0", ["keep-me.tar.gz"])], []⟩ Tier.tExport "9.0" ["keep-me.tar.gz"] (by decide)

/-- C3: an exception raised while acquiring a version's file list is caught
inside the per-version loop body: the version is appended to both blank
accumulators, the filesystem is unchanged by that iteration, and the run
continues with the remaining versions exactly as it would have without the
failing version. -/
theorem crawl_error_isolated (fetch : String → FetchResult) (blank_list : List String)
    (fs : CrawlFS) (v : String) (rest : List String)
    (herr : fetch v = FetchResult.err)
    (hEB : ¬((alookup v fs.exportCache).isSome = true
             ∧ (alookup v fs.browserCache).isSome = true))
    (hAll : alookup v fs.allCache = none)
    (hbl : v ∉ blank_list) :
    processVersions fetch blank_list fs (v :: rest) =
      ⟨(processVersions fetch blank_list fs rest).fs,
       v :: (processVersions fetch blank_list fs rest).exportBlanks,
       v :: (processVersions fetch blank_list fs rest).browserBlanks,
       1 + (processVersions fetch blank_list fs rest).fetches⟩ := by
  have hEB' : ¬(((alookup v fs.exportCache).isSome
      && (alookup v fs.browserCache).isSome) = true) := by
    rw [Bool.and_eq_true]; exact hEB
  have hstep : processVersion fetch blank_list fs v = ⟨fs, [v], [v], 1⟩ := by
    simp only [processVersion, if_neg hEB', hAll, if_neg hbl, herr]
  simp [processVersions, hstep]

/-- Witness for C3 at a concrete input: with an erroring fetch for "8.0",
the run over ["8.0", "9.0"] prepends "8.0" to both accumulators and
continues with "9.0". -/
theorem crawl_error_isolated_witness :
    processVersions (fun _ => FetchResult.err) [] ⟨[], [], []⟩ ["8.0", "9.0"] =
      ⟨(processVersions (fun _ => FetchResult.err) [] ⟨[], [], []⟩ ["9.0"]).fs,
       "8.0" :: (processVersions (fun _ => FetchResult.err) [] ⟨[], [], []⟩
         ["9.0"]).exportBlanks,
       "8.0" :: (processVersions (fun _ => FetchResult.err) [] ⟨[], [], []⟩
         ["9.0"]).browserBlanks,
       1 + (processVersions (fun _ => FetchResult.err) [] ⟨[], [], []⟩ ["9.0"]).fetches⟩ :=
  crawl_error_isolated (fun _ => FetchResult.err) [] ⟨[], [], []⟩ "8.0" ["9.0"] rfl
    (by decide) (by decide) (by decide)

/-! ### main.py: catalog data model and grouped projection (version_grouped) -/

/-- A catalog file entry `{file_name, url}`. -/
structure FileEntry where
  file_name : String
  url : String
deriving DecidableEq

/-- A catalog version entry `{version, files}`. -/
structure VersionEntry where
  version : String
  files : List FileEntry
deriving DecidableEq

/-- The five platform buckets of `version_grouped`. -/
inductive Bucket where
  | windows
  | macos
  | linux
  | android
  | other
deriving DecidableEq

/-- The classification chain inside `version_grouped` (lines 236–247 of
main.py): lowercase the file name, then case-sensitive substring tests in
fixed precedence order, first match wins. -/
def classify_platform (file_name : String) : Bucket :=
  let n := toLowerStr file_name
  if ["win", "windows"].any (fun x => containsSub x n) then .windows
  else if ["mac", "osx", "darwin"].any (fun x => containsSub x n) then .macos
  else if containsSub "linux" n then .linux
  else if containsSub "android" n then .android
  else .other

/-- The grouped projection's five fixed-key lists. -/
structure Grouped where
  windows : List FileEntry
  macos : List FileEntry
  linux : List FileEntry
  android : List FileEntry
  other : List FileEntry
deriving DecidableEq

def Grouped.get (g : Grouped) : Bucket → List FileEntry
  | .windows => g.windows
  | .macos => g.macos
  | .linux => g.linux
  | .android => g.android
  | .other => g.other

/-- `grouped[bucket].append(file)`. -/
def addFile (g : Grouped) (b : Bucket) (f : FileEntry) : Grouped :=
  match b with
  | .windows => { g with windows := g.windows ++ [f] }
  | .macos => { g with macos := g.macos ++ [f] }
  | .linux => { g with linux := g.linux ++ [f] }
  | .android => { g with android := g.android ++ [f] }
  | .other => { g with other := g.other ++ [f] }

/-- `version_grouped` (lines 223–248 of main.py): iterate every entry and
every file, appending each file to the bucket its name classifies to. -/
def version_grouped (data : List VersionEntry) : Grouped :=
  data.foldl (fun g entry =>
    entry.files.foldl (fun g file => addFile g (classify_platform file.file_name) file) g)
    ⟨[], [], [], [], []⟩

/-- All files of a catalog document, in iteration order. -/
def allFiles : List VersionEntry → List FileEntry
  | [] => []
  | e :: rest => e.files ++ allFiles rest

lemma get_addFile (g : Grouped) (b b' : Bucket) (f : FileEntry) :
    (addFile g b f).get b' = if b' = b then g.get b' ++ [f] else g.get b' := by
  cases b <;> cases b' <;> simp [addFile, Grouped.get]

lemma files_fold_get (files : List FileEntry) (g : Grouped) (b : Bucket) :
    ((files.foldl (fun g f => addFile g (classify_platform f.file_name) f) g).get b)
      = g.get b ++ files.filter (fun f => classify_platform f.file_name == b) := by
  induction files generalizing g with
  | nil => simp
  | cons f rest ih =>
    simp only [List.foldl_cons, List.filter_cons]
    rw [ih, get_addFile]
    by_cases hb : b = classify_platform f.file_name
    · simp [if_pos hb, hb.symm, List.append_assoc]
    · have hb' : ¬(classify_platform f.file_name == b) = true := by
        simp only [beq_iff_eq]
        exact fun hc => hb hc.symm
      simp [if_neg hb, hb']

lemma version_grouped_get (data : List VersionEntry) (g : Grouped) (b : Bucket) :
    ((data.foldl (fun g entry =>
        entry.files.foldl
          (fun g file => addFile g (classify_platform file.file_name) file) g) g).get b)
      = g.get b ++ (allFiles data).filter (fun f => classify_platform f.file_name == b) := by
  induction data generalizing g with
  | nil => simp [allFiles]
  | cons e rest ih =>
    simp only [List.foldl_cons, allFiles, List.filter_append]
    rw [ih, files_fold_get, List.append_assoc]

/-- C4: `version_grouped` is a partition of the catalog's files: each bucket
holds exactly the files whose name classifies to it (in catalog order), every
file of the catalog lands in the bucket its name classifies to, and distinct
buckets are disjoint. -/
theorem version_grouped_partition (data : List VersionEntry) :
    (∀ b, (version_grouped data).get b
        = (allFiles data).filter (fun f => classify_platform f.file_name == b))
    ∧ (∀ f, f ∈ allFiles data
        → f ∈ (version_grouped data).get (classify_platform f.file_name))
    ∧ (∀ b b', b ≠ b' → ∀ f, f ∈ (version_grouped data).get b
        → f ∉ (version_grouped data).get b') := by
  have hkey : ∀ b, (version_grouped data).get b
      = (allFiles data).filter (fun f => classify_platform f.file_name == b) := by
    intro b
    have h0 : (Grouped.mk [] [] [] [] []).get b = [] := by cases b <;> rfl
    rw [version_grouped, version_grouped_get, h0, List.nil_append]
  refine ⟨hkey, ?_, ?_⟩
  · intro f hf
    rw [hkey]
    exact List.mem_filter.mpr ⟨hf, by simp⟩
  · intro b b' hne f hfb hfb'
    rw [hkey] at hfb hfb'
    have h1 := (List.mem_filter.mp hfb).2
    have h2 := (List.mem_filter.mp hfb').2
    rw [beq_iff_eq] at h1 h2
    exact hne (h1 ▸ h2)

/-- Witness for C4 at a concrete input: a Windows-named file of a one-entry
catalog lands in the bucket its name classifies to. -/
theorem version_grouped_partition_witness :
    (⟨"torbrowser-install-win64-13.0.exe", "u"⟩ : FileEntry) ∈
      (version_grouped [⟨"13.0", [⟨"torbrowser-install-win64-13.0.exe", "u"⟩]⟩]).get
        (classify_platform "torbrowser-install-win64-13.0.exe") :=
  (version_grouped_partition [⟨"13.0", [⟨"torbrowser-install-win64-13.0.exe", "u"⟩]⟩]).2.1
    ⟨"torbrowser-install-win64-13.0.exe", "u"⟩ (by decide)

/-! ### Stable sorting (Python `list.sort(key=...)` / `sorted(key=...)`)

Python's sort is a stable ascending sort by key; any stable ascending sort
has the same output, so we embed it as a stable insertion sort, which the
kernel can evaluate. -/

section StableSort

variable {α : Type}

/-- Insert `x` after every element already ≤ it (stable insertion). -/
def insertStable (le : α → α → Bool) (x : α) : List α → List α
  | [] => [x]
  | y :: ys => if le y x then y :: insertStable le x ys else x :: y :: ys

/-- Stable ascending sort by `le`. -/
def stableSort (le : α → α → Bool) (l : List α) : List α :=
  l.foldl (fun acc x => insertStable le x acc) []

lemma mem_insertStable (le : α → α → Bool) (x a : α) (l : List α) :
    a ∈ insertStable le x l ↔ a = x ∨ a ∈ l := by
  induction l with
  | nil => simp [insertStable]
  | cons y ys ih =>
    simp only [insertStable]
    split
    · simp only [List.mem_cons, ih]
      tauto
    · simp only [List.mem_cons]

lemma pairwise_insertStable (le : α → α → Bool)
    (htrans : ∀ a b c, le a b = true → le b c = true → le a c = true)
    (htotal : ∀ a b, (le a b || le b a) = true)
    (x : α) (l : List α) (h : l.Pairwise (fun a b => le a b = true)) :
    (insertStable le x l).Pairwise (fun a b => le a b = true) := by
  induction l with
  | nil => simp [insertStable]
  | cons y ys ih =>
    rcases List.pairwise_cons.mp h with ⟨hy, hys⟩
    simp only [insertStable]
    split
    · next hle =>
      refine List.pairwise_cons.mpr ⟨?_, ih hys⟩
      intro b hb
      rcases (mem_insertStable le x b ys).mp hb with rfl | hbys
      · exact hle
      · exact hy b hbys
    · next hnle =>
      have hx : ∀ b, le b x = true → le x b = true → le x b = true := fun _ _ h => h
      refine List.pairwise_cons.mpr ⟨?_, h⟩
      intro b hb
      have hxy : le x y = true := by
        cases (Bool.or_eq_true _ _).mp (htotal x y) with
        | inl h => exact h
        | inr h => exact absurd h hnle
      rcases List.mem_cons.mp hb with rfl | hbys
      · exact hxy
      · exact htrans x y b hxy (hy b hbys)

lemma pairwise_stableSort_aux (le : α → α → Bool)
    (htrans : ∀ a b c, le a b = true → le b c = true → le a c = true)
    (htotal : ∀ a b, (le a b || le b a) = true) :
    ∀ (l acc : List α), acc.Pairwise (fun a b => le a b = true) →
      (l.foldl (fun acc x => insertStable le x acc) acc).Pairwise
        (fun a b => le a b = true) := by
  intro l
  induction l with
  | nil => intro acc hacc; exact hacc
  | cons x xs ih =>
    intro acc hacc
    exact ih _ (pairwise_insertStable le htrans htotal x acc hacc)

lemma pairwise_stableSort (le : α → α → Bool)
    (htrans : ∀ a b c, le a b = true → le b c = true → le a c = true)
    (htotal : ∀ a b, (le a b || le b a) = true) (l : List α) :
    (stableSort le l).Pairwise (fun a b => le a b = true) :=
  pairwise_stableSort_aux le htrans htotal l [] List.Pairwise.nil

lemma mem_stableSort_aux (le : α → α → Bool) :
    ∀ (l acc : List α) (a : α),
      a ∈ l.foldl (fun acc x => insertStable le x acc) acc ↔ a ∈ acc ∨ a ∈ l := by
  intro l
  induction l with
  | nil => intro acc a; simp
  | cons x xs ih =>
    intro acc a
    simp only [List.foldl_cons, ih, mem_insertStable, List.mem_cons]
    tauto

lemma mem_stableSort (le : α → α → Bool) (l : List α) (a : α) :
    a ∈ stableSort le l ↔ a ∈ l := by
  simp [stableSort, mem_stableSort_aux]

end StableSort

lemma natListLe_refl (a : List Nat) : natListLe a a = true := by
  induction a with
  | nil => rfl
  | cons x xs ih => simp [natListLe, ih]

lemma natListLe_trans (a : List Nat) :
    ∀ b c, natListLe a b = true → natListLe b c = true → natListLe a c = true := by
  induction a with
  | nil => intro b c _ _; rfl
  | cons x xs ih =>
    intro b c h1 h2
    cases b with
    | nil => simp [natListLe] at h1
    | cons y ys =>
      cases c with
      | nil => simp [natListLe] at h2
      | cons z zs =>
        simp only [natListLe] at h1 h2 ⊢
        rcases Nat.lt_trichotomy x y with hx | hx | hx
        · rcases Nat.lt_trichotomy y z with hy | hy | hy
          · simp [Nat.lt_trans hx hy]
          · subst hy; simp [hx]
          · rw [if_neg (Nat.lt_asymm hy), if_pos hy] at h2
            exact absurd h2 (by simp)
        · subst hx
          rw [if_neg (Nat.lt_irrefl x), if_neg (Nat.lt_irrefl x)] at h1
          rcases Nat.lt_trichotomy x z with hz | hz | hz
          · simp [hz]
          · subst hz
            rw [if_neg (Nat.lt_irrefl x), if_neg (Nat.lt_irrefl x)] at h2 ⊢
            exact ih ys zs h1 h2
          · rw [if_neg (Nat.lt_asymm hz), if_pos hz] at h2
            exact absurd h2 (by simp)
        · rw [if_neg (Nat.lt_asymm hx), if_pos hx] at h1
          exact absurd h1 (by simp)

lemma natListLe_total (a : List Nat) :
    ∀ b, (natListLe a b || natListLe b a) = true := by
  induction a with
  | nil => intro b; simp [natListLe]
  | cons x xs ih =>
    intro b
    cases b with
    | nil => simp [natListLe]
    | cons y ys =>
      simp only [natListLe]
      rcases Nat.lt_trichotomy x y with h | h | h
      · simp [h, Nat.lt_asymm h]
      · subst h
        simp only [Nat.lt_irrefl, if_false]
        exact ih ys
      · simp [h, Nat.lt_asymm h]

/-! ### main.py: catalog builders (build_export_versions / build_browser_versions) -/

/-- The sort key comparison `key=lambda x: list(map(int, re.findall(r'\d+', x["version"])))`. -/
def entryLe (a b : VersionEntry) : Bool :=
  natListLe (versionKey a.version) (versionKey b.version)

/-- `build_export_versions` (lines 73–97 of main.py).  The export cache
directory is given as a list of (file name, JSON parse outcome) pairs; a
parse error models the caught `JSONDecodeError`/`FileNotFoundError`
(`continue`). -/
def build_export_versions (dir : List (String × Except Unit (List String))) :
    List VersionEntry :=
  let cache_files := dir.filter (fun p => endsWithStr p.1 ".json")
  let version_json := cache_files.foldl (fun acc p =>
    match p.2 with
    | .error _ => acc
    | .ok files =>
      let version_number := replaceStr p.1 ".json" ""
      acc ++ [⟨version_number,
        files.map (fun fn => ⟨fn, BASE_URL ++ version_number ++ "/" ++ fn⟩)⟩]) []
  stableSort entryLe version_json

/-- `build_browser_versions` (lines 99–123 of main.py); identical body over
the browser cache directory. -/
def build_browser_versions (dir : List (String × Except Unit (List String))) :
    List VersionEntry :=
  let cache_files := dir.filter (fun p => endsWithStr p.1 ".json")
  let version_json := cache_files.foldl (fun acc p =>
    match p.2 with
    | .error _ => acc
    | .ok files =>
      let version_number := replaceStr p.1 ".json" ""
      acc ++ [⟨version_number,
        files.map (fun fn => ⟨fn, BASE_URL ++ version_number ++ "/" ++ fn⟩)⟩]) []
  stableSort entryLe version_json

/-- C5: both catalog builders return their version entries sorted by the
numeric-tuple key (every adjacent-or-later pair is related by the key
order), and on the cache directory {2.0, 10.0, 2.0.1} the resulting order
is ["2.0", "2.0.1", "10.0"], not the lexicographic order. -/
theorem build_versions_sorted (dir : List (String × Except Unit (List String))) :
    ((build_export_versions dir).Pairwise (fun a b => entryLe a b = true))
    ∧ ((build_browser_versions dir).Pairwise (fun a b => entryLe a b = true))
    ∧ ((build_export_versions
          [("2.0.json", .ok []), ("10.0.json", .ok []), ("2.0.1.json", .ok [])]).map
        (fun e => e.version) = ["2.0", "2.0.1", "10.0"])
    ∧ ((build_browser_versions
          [("2.0.json", .ok []), ("10.0.json", .ok []), ("2.0.1.json", .ok [])]).map
        (fun e => e.version) = ["2.0", "2.0.1", "10.0"]) := by
  have htrans : ∀ a b c : VersionEntry,
      entryLe a b = true → entryLe b c = true → entryLe a c = true :=
    fun a b c h1 h2 => natListLe_trans _ _ _ h1 h2
  have htotal : ∀ a b : VersionEntry, (entryLe a b || entryLe b a) = true :=
    fun a b => natListLe_total _ _
  exact ⟨pairwise_stableSort entryLe htrans htotal _,
    pairwise_stableSort entryLe htrans htotal _, by decide, by decide⟩

/-! ### main.py: latest-version projection (get_latest_version) -/

/-- The latest-version document `{version: string|null, files: [...]}`. -/
structure LatestDoc where
  version : Option String
  files : List FileEntry
deriving DecidableEq

/-- The regex `^\d+(\.\d+)*$` of line 256 of main.py: every dot-separated
component is nonempty and all-digits (ASCII). -/
def isNumericDotted (s : String) : Bool :=
  (splitDot s).all (fun comp => !comp.isEmpty && comp.all Char.isDigit)

/-- `get_latest_version` (lines 250–263 of main.py): filter to purely
numerical versions, sort by numeric tuple, return the last entry, with the
`{"version": None, "files": []}` sentinel for empty/no-qualifier inputs. -/
def get_latest_version (data : List VersionEntry) : LatestDoc :=
  if data.isEmpty then ⟨none, []⟩
  else
    let numerical_only := data.filter (fun e => isNumericDotted e.version)
    if numerical_only.isEmpty then ⟨none, []⟩
    else
      let sorted_data := stableSort entryLe numerical_only
      match sorted_data.getLast? with
      | some e => ⟨some e.version, e.files⟩
      | none => ⟨none, []⟩

lemma pairwise_le_getLast? {α : Type} (le : α → α → Bool) (hrefl : ∀ a, le a a = true)
    (w x : α) : ∀ (l : List α), l.Pairwise (fun a b => le a b = true) →
      l.getLast? = some w → x ∈ l → le x w = true := by
  intro l
  induction l with
  | nil => intro _ _ hx; cases hx
  | cons y ys ih =>
    intro h hw hx
    rcases List.pairwise_cons.mp h with ⟨hy, hys⟩
    cases ys with
    | nil =>
      have hw' : y = w := by simpa using hw
      have hx' : x = y := by simpa using hx
      rw [hx', hw']
      exact hrefl w
    | cons z zs =>
      have hw' : (z :: zs).getLast? = some w := by simpa using hw
      rcases List.mem_cons.mp hx with rfl | hxs
      · exact hy w (List.mem_of_getLast?_eq_some hw')
      · exact ih hys hw' hxs

/-- C6: `get_latest_version` returns the sentinel on an empty input and when
no entry has a purely numerical dotted version; otherwise it returns an
entry of the input whose version is purely numerical and whose numeric
tuple is maximal among all qualifying entries; and on
[14.0.3, 14.0.4-alpha] it returns 14.0.3 (the alpha-suffixed version is
excluded). -/
theorem get_latest_version_spec :
    (get_latest_version [] = ⟨none, []⟩)
    ∧ (∀ data : List VersionEntry,
        data.filter (fun e => isNumericDotted e.version) = [] →
        get_latest_version data = ⟨none, []⟩)
    ∧ (∀ (data : List VersionEntry) (e : VersionEntry), e ∈ data →
        isNumericDotted e.version = true →
        ∃ w, w ∈ data ∧ isNumericDotted w.version = true
          ∧ get_latest_version data = ⟨some w.version, w.files⟩
          ∧ ∀ x ∈ data, isNumericDotted x.version = true → entryLe x w = true)
    ∧ ((get_latest_version [⟨"14.0.3", []⟩, ⟨"14.0.4-alpha", []⟩]).version
        = some "14.0.3") := by
  have htrans : ∀ a b c : VersionEntry,
      entryLe a b = true → entryLe b c = true → entryLe a c = true :=
    fun a b c h1 h2 => natListLe_trans _ _ _ h1 h2
  have htotal : ∀ a b : VersionEntry, (entryLe a b || entryLe b a) = true :=
    fun a b => natListLe_total _ _
  have hrefl : ∀ a : VersionEntry, entryLe a a = true := fun a => natListLe_refl _
  refine ⟨rfl, ?_, ?_, by decide⟩
  · intro data hfilter
    cases data with
    | nil => rfl
    | cons d ds =>
      simp only [get_latest_version, List.isEmpty_cons, hfilter]
      rfl
  · intro data e he hq
    cases data with
    | nil => cases he
    | cons d ds =>
      have hqe : e ∈ (d :: ds).filter (fun e => isNumericDotted e.version) :=
        List.mem_filter.mpr ⟨he, hq⟩
      have hne : (d :: ds).filter (fun e => isNumericDotted e.version) ≠ [] :=
        List.ne_nil_of_mem hqe
      have hsortmem : e ∈ stableSort entryLe
          ((d :: ds).filter (fun e => isNumericDotted e.version)) :=
        (mem_stableSort entryLe _ e).mpr hqe
      cases hlast : (stableSort entryLe
          ((d :: ds).filter (fun e => isNumericDotted e.version))).getLast? with
      | none =>
        rw [List.getLast?_eq_none_iff] at hlast
        rw [hlast] at hsortmem
        cases hsortmem
      | some w =>
        have hwmem : w ∈ (d :: ds).filter (fun e => isNumericDotted e.version) :=
          (mem_stableSort entryLe _ w).mp (List.mem_of_getLast?_eq_some hlast)
        have hw' := List.mem_filter.mp hwmem
        refine ⟨w, hw'.1, hw'.2, ?_, ?_⟩
        · simp only [get_latest_version, List.isEmpty_cons, Bool.false_eq_true, if_false,
            List.isEmpty_eq_true, hlast]
          rw [if_neg]
          exact fun hc => hne (by simpa using hc)
        · intro x hx hxq
          have hxs : x ∈ stableSort entryLe
              ((d :: ds).filter (fun e => isNumericDotted e.version)) :=
            (mem_stableSort entryLe _ x).mpr (List.mem_filter.mpr ⟨hx, hxq⟩)
          exact pairwise_le_getLast? entryLe hrefl w x _
            (pairwise_stableSort entryLe htrans htotal _) hlast hxs

/-- Witness for C6 at a concrete input: on a one-entry catalog with a
purely numerical version, the projection picks that entry. -/
theorem get_latest_version_spec_witness :
    ∃ w, w ∈ [(⟨"2.0", []⟩ : VersionEntry)] ∧ isNumericDotted w.version = true
      ∧ get_latest_version [(⟨"2.0", []⟩ : VersionEntry)] = ⟨some w.version, w.files⟩
      ∧ ∀ x ∈ [(⟨"2.0", []⟩ : VersionEntry)], isNumericDotted x.version = true
          → entryLe x w = true :=
  get_latest_version_spec.2.2.1 [⟨"2.0", []⟩] ⟨"2.0", []⟩ (by decide) (by decide)

/-! ### extract_daemon_versions.py: byte-scan fallback
(extract_version_from_binary_strings)

The binary is read as bytes and decoded with latin-1 (one char per byte,
never failing), so the buffer is modelled as a `String`.  The three regex
patterns are simple enough to embed exactly: each is a literal followed by
a greedy character-class run (for the third, interspersed with greedy
whitespace runs whose following literals are outside the class, so the
greedy scan never backtracks).  `re.search` returns the leftmost match. -/

/-- The character class `[\d\.]`. -/
def isVerChar (c : Char) : Bool :=
  c.isDigit || c = '.'

/-- Python's `\s` class (ASCII range). -/
def isPySpace (c : Char) : Bool :=
  c = ' ' || c = '\t' || c = '\n' || c = '\r' || c = '\x0b' || c = '\x0c'

/-- A literal match at the current position, optionally case-insensitive
(re.IGNORECASE). -/
def matchesLit (ci : Bool) (lit cs : List Char) : Bool :=
  if ci then listStarts (lit.map Char.toLower) (cs.map Char.toLower)
  else listStarts lit cs

/-- One match attempt of `Tor version ([\d\.]+)` at the head of `cs`,
returning the captured group. -/
def parseTorVersion (ci : Bool) (cs : List Char) : Option String :=
  let lit := "Tor version ".data
  if matchesLit ci lit cs then
    let run := (cs.drop lit.length).takeWhile isVerChar
    if run.isEmpty then none else some (String.mk run)
  else none

/-- One match attempt of `tor-([\d\.]+)` at the head of `cs`. -/
def parseTorDash (ci : Bool) (cs : List Char) : Option String :=
  let lit := "tor-".data
  if matchesLit ci lit cs then
    let run := (cs.drop lit.length).takeWhile isVerChar
    if run.isEmpty then none else some (String.mk run)
  else none

/-- One match attempt of `VERSION\s*=\s*"([\d\.]+)"` at the head of `cs`. -/
def parseVersionAssign (ci : Bool) (cs : List Char) : Option String :=
  let lit := "VERSION".data
  if matchesLit ci lit cs then
    match (cs.drop lit.length).dropWhile isPySpace with
    | '=' :: rest2 =>
      match rest2.dropWhile isPySpace with
      | '"' :: rest4 =>
        let run := rest4.takeWhile isVerChar
        if run.isEmpty then none
        else
          match rest4.drop run.length with
          | '"' :: _ => some (String.mk run)
          | _ => none
      | _ => none
    | _ => none
  else none

/-- `re.search`: try the pattern at each position left to right and return
the first (leftmost) match's capture. -/
def searchPat (parse : List Char → Option String) : List Char → Option String
  | [] => parse []
  | c :: cs => if (parse (c :: cs)).isSome then parse (c :: cs) else searchPat parse cs

/-- The validation regex `^\d+\.\d+\.\d+\.\d+$` of line 107. -/
def isFourComp (s : String) : Bool :=
  match splitDot s with
  | [a, b, c, d] =>
    !a.isEmpty && a.all Char.isDigit && !b.isEmpty && b.all Char.isDigit
      && !c.isEmpty && c.all Char.isDigit && !d.isEmpty && d.all Char.isDigit
  | _ => false

/-- Third pattern stage of the loop of lines 102–109. -/
def evfbsP3 (cs : List Char) : Option String :=
  match searchPat (parseVersionAssign true) cs with
  | some version => if isFourComp version then some version else none
  | none => none

/-- Second pattern stage of the loop of lines 102–109. -/
def evfbsP2 (cs : List Char) : Option String :=
  match searchPat (parseTorDash true) cs with
  | some version => if isFourComp version then some version else evfbsP3 cs
  | none => evfbsP3 cs

/-- `extract_version_from_binary_strings` (lines 85–115): for each pattern
in order take its first match in the buffer; return the capture if it
passes the strict four-component validation, otherwise move to the next
pattern; `None` when all patterns are exhausted. -/
def extract_version_from_binary_strings (text : String) : Option String :=
  match searchPat (parseTorVersion true) text.data with
  | some version => if isFourComp version then some version else evfbsP2 text.data
  | none => evfbsP2 text.data

/-- C7 counterexample: a buffer containing "Tor version 0.4.8.19" with a
digit as the very next noise byte makes the greedy capture "0.4.8.190",
which passes validation and is returned instead of "0.4.8.19". -/
theorem evfbs_counterexample :
    containsSub "Tor version 0.4.8.19" "xTor version 0.4.8.190x" = true
    ∧ extract_version_from_binary_strings "xTor version 0.4.8.190x" = some "0.4.8.190"
    ∧ extract_version_from_binary_strings "xTor version 0.4.8.190x" ≠ some "0.4.8.19" := by
  decide

lemma listStarts_prefix (l r : List Char) : listStarts l (l ++ r) = true := by
  induction l with
  | nil => rfl
  | cons c cs ih => simp [listStarts, ih]

lemma takeWhile_append_all (p : Char → Bool) (l₁ l₂ : List Char)
    (h1 : l₁.all p = true) (h2 : l₂.takeWhile p = []) :
    (l₁ ++ l₂).takeWhile p = l₁ := by
  induction l₁ with
  | nil => exact h2
  | cons c cs ih =>
    rw [List.all_cons, Bool.and_eq_true] at h1
    simp only [List.cons_append, List.takeWhile_cons, h1.1, if_true]
    rw [ih h1.2]

lemma searchPat_parse_some (parse : List Char → Option String) (l : List Char)
    (v : String) (h : parse l = some v) : searchPat parse l = some v := by
  cases l with
  | nil => simpa [searchPat] using h
  | cons c cs => simp [searchPat, h]

lemma searchPat_append (parse : List Char → Option String) :
    ∀ (l₁ l₂ : List Char), (∀ j, j < l₁.length → parse ((l₁ ++ l₂).drop j) = none) →
      searchPat parse (l₁ ++ l₂) = searchPat parse l₂ := by
  intro l₁
  induction l₁ with
  | nil => intro l₂ _; rfl
  | cons c cs ih =>
    intro l₂ hnone
    have h0 : parse (c :: (cs ++ l₂)) = none := by
      have := hnone 0 (Nat.zero_lt_succ _)
      simpa using this
    simp only [List.cons_append, searchPat, List.append_eq, h0, Option.isSome_none,
      Bool.false_eq_true, if_false]
    exact ih l₂ (fun j hj => by
      have := hnone (j + 1) (Nat.succ_lt_succ hj)
      simpa using this)

lemma parseTorVersion_at_core (s : List Char) (hsuf : s.takeWhile isVerChar = []) :
    parseTorVersion true ("Tor version 0.4.8.19".data ++ s) = some "0.4.8.19" := by
  have hsplit : "Tor version 0.4.8.19".data
      = "Tor version ".data ++ "0.4.8.19".data := by decide
  have hm : matchesLit true "Tor version ".data ("Tor version 0.4.8.19".data ++ s)
      = true := by
    rw [matchesLit, if_pos rfl, List.map_append]
    rw [show ("Tor version 0.4.8.19".data).map Char.toLower
        = "tor version ".data ++ "0.4.8.19".data from by decide]
    rw [show ("Tor version ".data).map Char.toLower = "tor version ".data from by decide]
    rw [List.append_assoc]
    exact listStarts_prefix _ _
  simp only [parseTorVersion]
  rw [if_pos hm]
  have hdrop : (("Tor version 0.4.8.19".data ++ s).drop ("Tor version ".data).length)
      = "0.4.8.19".data ++ s := by
    rw [hsplit, List.append_assoc, List.drop_left]
  rw [hdrop, takeWhile_append_all isVerChar _ _ (by decide) hsuf]
  decide

/-- C7 (amended): the byte-scan returns "0.4.8.19" for a buffer embedding
"Tor version 0.4.8.19" provided the noise before the embedded phrase
contains no earlier first-pattern match and the noise after it does not
begin with a digit or a dot; with arbitrary adjacent noise the greedy
capture can differ (see the counterexample). -/
theorem evfbs_amended (p s : String)
    (hpre : ∀ j, j < p.data.length → parseTorVersion true
      ((p.data ++ "Tor version 0.4.8.19".data ++ s.data).drop j) = none)
    (hsuf : s.data.takeWhile isVerChar = []) :
    extract_version_from_binary_strings (p ++ "Tor version 0.4.8.19" ++ s)
      = some "0.4.8.19" := by
  have hdata : (p ++ "Tor version 0.4.8.19" ++ s).data
      = p.data ++ ("Tor version 0.4.8.19".data ++ s.data) := by
    rw [String.data_append, String.data_append, List.append_assoc]
  have hsearch : searchPat (parseTorVersion true)
      ((p ++ "Tor version 0.4.8.19" ++ s).data) = some "0.4.8.19" := by
    rw [hdata]
    rw [searchPat_append (parseTorVersion true) p.data
      ("Tor version 0.4.8.19".data ++ s.data)
      (fun j hj => by rw [← List.append_assoc]; exact hpre j hj)]
    exact searchPat_parse_some _ _ _ (parseTorVersion_at_core s.data hsuf)
  have h4 : isFourComp "0.4.8.19" = true := by decide
  rw [extract_version_from_binary_strings, hsearch]
  simp [h4]

/-- Witness for the amended C7 at a concrete input: noise "xx " before and
"!x" after the embedded phrase. -/
theorem evfbs_amended_witness :
    extract_version_from_binary_strings ("xx " ++ "Tor version 0.4.8.19" ++ "!x")
      = some "0.4.8.19" :=
  evfbs_amended "xx " "!x" (by decide) (by decide)

/-! ### extract_daemon_versions.py: extract_version (native-execution vs
byte-scan decision) -/

/-- Observable side effects of the native execution path. -/
inductive ExecAction where
  | chmod
  | runProc
deriving DecidableEq

/-- Outcome of one `subprocess.run` attempt: a timeout, a raised
exception, or the combined stdout+stderr text. -/
inductive ExecOutcome where
  | timeout
  | err
  | output (out : String)
deriving DecidableEq

/-- Lines 122–136 of extract_daemon_versions.py: `can_execute` is set only
when the host platform token matches the binary path, and never for a path
containing "android" or "arm". -/
def canExecute (system path : String) : Bool :=
  let binary_path_str := toLowerStr path
  if containsSub "android" binary_path_str || containsSub "arm" binary_path_str then false
  else if system == "linux" && containsSub "linux" binary_path_str then true
  else if system == "windows" && containsSub "windows" binary_path_str then true
  else if system == "darwin" && containsSub "macos" binary_path_str then true
  else false

/-- Lines 154–195: each attempt chmods the binary (except on Windows),
runs it with --version, and parses `Tor version ([\d\.]+)` (case-sensitive,
no four-component validation) from the combined output; on failure of all
attempts the byte-scan fallback runs. -/
def runAttempts (system : String) (content : String) :
    List ExecOutcome → List ExecAction × Option String
  | [] => ([], extract_version_from_binary_strings content)
  | o :: rest =>
    let acts := (if system == "windows" then [] else [ExecAction.chmod])
      ++ [ExecAction.runProc]
    match o with
    | .output out =>
      match searchPat (parseTorVersion false) out.data with
      | some version => (acts, some version)
      | none =>
        let r := runAttempts system content rest
        (acts ++ r.1, r.2)
    | _ =>
      let r := runAttempts system content rest
      (acts ++ r.1, r.2)

/-- Lines 141–152: on Linux two attempts (LD_LIBRARY_PATH, then default),
otherwise one. -/
def attemptsOutcomes (system : String) (oracle : Nat → ExecOutcome) :
    List ExecOutcome :=
  if system == "linux" then [oracle 0, oracle 1] else [oracle 0]

/-- `extract_version` (lines 117–199): native execution when eligible,
with the byte-scan as the only path otherwise.  The returned action list
records every chmod/subprocess effect. -/
def extract_version (system path : String) (oracle : Nat → ExecOutcome)
    (content : String) : List ExecAction × Option String :=
  if canExecute system path then
    runAttempts system content (attemptsOutcomes system oracle)
  else
    ([], extract_version_from_binary_strings content)

/-- The binary path's platform tag matches the current host platform. -/
def platformMatches (system path : String) : Prop :=
  (system = "linux" ∧ containsSub "linux" (toLowerStr path) = true)
  ∨ (system = "windows" ∧ containsSub "windows" (toLowerStr path) = true)
  ∨ (system = "darwin" ∧ containsSub "macos" (toLowerStr path) = true)

/-- C8: for a binary whose lowercased path contains "android" or "arm", or
whose platform tag does not match the host, `extract_version` performs no
chmod and no subprocess invocation: only the byte-scan fallback runs. -/
theorem no_native_execution (system path : String) (oracle : Nat → ExecOutcome)
    (content : String)
    (h : containsSub "android" (toLowerStr path) = true
       ∨ containsSub "arm" (toLowerStr path) = true
       ∨ ¬platformMatches system path) :
    extract_version system path oracle content
      = ([], extract_version_from_binary_strings content) := by
  have hce : canExecute system path = false := by
    simp only [canExecute]
    by_cases ha : containsSub "android" (toLowerStr path) = true
    · simp [ha]
    · by_cases hb : containsSub "arm" (toLowerStr path) = true
      · simp [hb]
      · have hm : ¬platformMatches system path := by
          rcases h with h | h | h
          · exact absurd h ha
          · exact absurd h hb
          · exact h
        have h1 : (system == "linux" && containsSub "linux" (toLowerStr path)) = false :=
          Bool.eq_false_iff.mpr (fun hc => by
            rw [Bool.and_eq_true, beq_iff_eq] at hc
            exact hm (Or.inl hc))
        have h2 : (system == "windows" && containsSub "windows" (toLowerStr path))
            = false :=
          Bool.eq_false_iff.mpr (fun hc => by
            rw [Bool.and_eq_true, beq_iff_eq] at hc
            exact hm (Or.inr (Or.inl hc)))
        have h3 : (system == "darwin" && containsSub "macos" (toLowerStr path)) = false :=
          Bool.eq_false_iff.mpr (fun hc => by
            rw [Bool.and_eq_true, beq_iff_eq] at hc
            exact hm (Or.inr (Or.inr hc)))
        have ha' := Bool.eq_false_iff.mpr ha
        have hb' := Bool.eq_false_iff.mpr hb
        simp [ha', hb', h1, h2, h3]
  simp [extract_version, hce]

/-- Witness for C8 at a concrete input: a Linux-tagged binary on a Darwin
host is never executed natively. -/
theorem no_native_execution_witness :
    extract_version "darwin" "tor-expert-bundle-linux-x86_64-14.0.tar.gz"
        (fun _ => ExecOutcome.err) "noise Tor version 0.4.8.19 noise"
      = ([], extract_version_from_binary_strings "noise Tor version 0.4.8.19 noise") :=
  no_native_execution "darwin" "tor-expert-bundle-linux-x86_64-14.0.tar.gz"
    (fun _ => ExecOutcome.err) "noise Tor version 0.4.8.19 noise"
    (Or.inr (Or.inr (by unfold platformMatches; decide)))

/-! ### extract_daemon_versions.py / calculate_binary_hashes.py: the
enrichment main loops -/

/-- A catalog file entry as seen by the daemon-version pass. -/
structure DFile where
  file_name : String
  url : String
  daemon_version : Option String
  daemon_hash : Option String
deriving DecidableEq

/-- Python truthiness of an optional string field (absent/None/"" are
falsy). -/
def truthyStr (o : Option String) : Bool :=
  match o with
  | some s => !(s == "")
  | none => false

/-- Line 275: the skip test `'daemon_version' in file_info and
file_info['daemon_version'] and not ....startswith('Error')`. -/
def validDV (o : Option String) : Bool :=
  match o with
  | some s => !(s == "") && !(startsWithStr s "Error")
  | none => false

/-- Result of one iteration of the daemon-pass loop: the (possibly
updated) entry, whether it was counted as updated, and whether
`process_binary` (download/extract/execute) was invoked at all. -/
structure DaemonStep where
  entry : DFile
  counted : Bool
  consulted : Bool
deriving DecidableEq

/-- Lines 267–289 of extract_daemon_versions.py, one entry.  The oracle
stands for `process_binary`: `none` is its `None` (download/extract/find
failure); `some (v, h)` is its `{'version': v, 'hash': h}` dict (always
truthy, even when both fields are None). -/
def stepDaemon (osFilter : String)
    (oracle : DFile → Option (Option String × Option String)) (f : DFile) : DaemonStep :=
  if osFilter != "" && !(containsSub osFilter (toLowerStr f.file_name)) then
    ⟨f, false, false⟩
  else if validDV f.daemon_version then ⟨f, false, false⟩
  else
    match oracle f with
    | none => ⟨f, false, true⟩
    | some (v, h) =>
      let f1 := if truthyStr v then { f with daemon_version := v } else f
      let f2 := if truthyStr h then { f1 with daemon_hash := h } else f1
      ⟨f2, true, true⟩

/-- The daemon-pass loop over all entries, with the updated count. -/
def runDaemonFiles (osFilter : String)
    (oracle : DFile → Option (Option String × Option String)) :
    List DFile → List DFile × Nat
  | [] => ([], 0)
  | f :: rest =>
    let s := stepDaemon osFilter oracle f
    let r := runDaemonFiles osFilter oracle rest
    (s.entry :: r.1, (if s.counted then 1 else 0) + r.2)

/-- Outcome of the daemon pass `main` (lines 242–303): the in-memory
catalog, the updated count, and whether the catalog JSON was written back
(`if updated_count > 0`). -/
structure DaemonRun where
  files : List DFile
  updatedCount : Nat
  wrote : Bool
deriving DecidableEq

def mainDaemon (osFilter : String)
    (oracle : DFile → Option (Option String × Option String)) (files : List DFile) :
    DaemonRun :=
  let r := runDaemonFiles osFilter oracle files
  ⟨r.1, r.2, decide (0 < r.2)⟩

/-- A catalog file entry as seen by the hash pass. -/
structure HFile where
  file_name : String
  url : String
  binary_md5 : Option String
  binary_sha256 : Option String
deriving DecidableEq

/-- Lines 167–188 of calculate_binary_hashes.py, one entry.  The oracle
stands for `process_binary`: `none` is its empty (falsy) dict; `some (m, s)`
the dict with both hex digests. -/
def stepHash (oracle : HFile → Option (String × String)) (f : HFile) : HFile × Bool :=
  if truthyStr f.binary_md5 && truthyStr f.binary_sha256 then (f, false)
  else
    match oracle f with
    | none => (f, false)
    | some (m, s) =>
      let f1 := if !(m == "") then { f with binary_md5 := some m } else f
      let f2 := if !(s == "") then { f1 with binary_sha256 := some s } else f1
      (f2, true)

def runHashFiles (oracle : HFile → Option (String × String)) :
    List HFile → List HFile × Nat
  | [] => ([], 0)
  | f :: rest =>
    let s := stepHash oracle f
    let r := runHashFiles oracle rest
    (s.1 :: r.1, (if s.2 then 1 else 0) + r.2)

/-- Outcome of the hash pass `main` (lines 147–202). -/
structure HashRun where
  files : List HFile
  updatedCount : Nat
  wrote : Bool
deriving DecidableEq

def mainHash (oracle : HFile → Option (String × String)) (files : List HFile) :
    HashRun :=
  let r := runHashFiles oracle files
  ⟨r.1, r.2, decide (0 < r.2)⟩

lemma stepDaemon_not_counted (osFilter : String)
    (oracle : DFile → Option (Option String × Option String)) (f : DFile)
    (h : (stepDaemon osFilter oracle f).counted = false) :
    (stepDaemon osFilter oracle f).entry = f := by
  unfold stepDaemon at h ⊢
  by_cases h1 : (osFilter != "" && !(containsSub osFilter (toLowerStr f.file_name))) = true
  · rw [if_pos h1]
  · rw [if_neg h1] at h ⊢
    by_cases h2 : validDV f.daemon_version = true
    · rw [if_pos h2]
    · rw [if_neg h2] at h ⊢
      revert h
      cases horacle : oracle f with
      | none => intro _; rfl
      | some vh =>
        obtain ⟨v, hh⟩ := vh
        intro h
        simp at h

lemma stepHash_not_counted (oracle : HFile → Option (String × String)) (f : HFile)
    (h : (stepHash oracle f).2 = false) : (stepHash oracle f).1 = f := by
  unfold stepHash at h ⊢
  by_cases h1 : (truthyStr f.binary_md5 && truthyStr f.binary_sha256) = true
  · rw [if_pos h1]
  · rw [if_neg h1] at h ⊢
    revert h
    cases horacle : oracle f with
    | none => intro _; rfl
    | some ms =>
      obtain ⟨m, s⟩ := ms
      intro h
      simp at h

lemma runDaemonFiles_count_zero (osFilter : String)
    (oracle : DFile → Option (Option String × Option String)) :
    ∀ files : List DFile, (runDaemonFiles osFilter oracle files).2 = 0 →
      (runDaemonFiles osFilter oracle files).1 = files := by
  intro files
  induction files with
  | nil => intro _; rfl
  | cons f rest ih =>
    intro h
    simp only [runDaemonFiles] at h ⊢
    have h2 : (runDaemonFiles osFilter oracle rest).2 = 0 := by omega
    have h1 : (if (stepDaemon osFilter oracle f).counted then 1 else 0) = 0 := by omega
    have hc : (stepDaemon osFilter oracle f).counted = false := by
      by_cases hb : (stepDaemon osFilter oracle f).counted
      · rw [if_pos hb] at h1; cases h1
      · exact Bool.eq_false_iff.mpr hb
    rw [stepDaemon_not_counted osFilter oracle f hc, ih h2]

lemma runHashFiles_count_zero (oracle : HFile → Option (String × String)) :
    ∀ files : List HFile, (runHashFiles oracle files).2 = 0 →
      (runHashFiles oracle files).1 = files := by
  intro files
  induction files with
  | nil => intro _; rfl
  | cons f rest ih =>
    intro h
    simp only [runHashFiles] at h ⊢
    have h2 : (runHashFiles oracle rest).2 = 0 := by omega
    have h1 : (if (stepHash oracle f).2 then 1 else 0) = 0 := by omega
    have hc : (stepHash oracle f).2 = false := by
      by_cases hb : (stepHash oracle f).2
      · rw [if_pos hb] at h1; cases h1
      · exact Bool.eq_false_iff.mpr hb
    rw [stepHash_not_counted oracle f hc, ih h2]

/-- C9: in both enrichment passes the catalog JSON is written back exactly
when at least one entry was counted as updated; when no entry was counted
the in-memory catalog is unchanged and no write occurs. -/
theorem enrich_write_iff (osFilter : String)
    (dOracle : DFile → Option (Option String × Option String)) (dFiles : List DFile)
    (hOracle : HFile → Option (String × String)) (hFiles : List HFile) :
    ((mainDaemon osFilter dOracle dFiles).wrote = true
      ↔ 0 < (mainDaemon osFilter dOracle dFiles).updatedCount)
    ∧ ((mainDaemon osFilter dOracle dFiles).updatedCount = 0 →
        (mainDaemon osFilter dOracle dFiles).wrote = false
        ∧ (mainDaemon osFilter dOracle dFiles).files = dFiles)
    ∧ ((mainHash hOracle hFiles).wrote = true
      ↔ 0 < (mainHash hOracle hFiles).updatedCount)
    ∧ ((mainHash hOracle hFiles).updatedCount = 0 →
        (mainHash hOracle hFiles).wrote = false
        ∧ (mainHash hOracle hFiles).files = hFiles) := by
  refine ⟨by simp [mainDaemon], ?_, by simp [mainHash], ?_⟩
  · intro h
    simp only [mainDaemon] at h ⊢
    exact ⟨by simp [h], runDaemonFiles_count_zero osFilter dOracle dFiles h⟩
  · intro h
    simp only [mainHash] at h ⊢
    exact ⟨by simp [h], runHashFiles_count_zero hOracle hFiles h⟩

/-- Witness for C9 at a concrete input: with failing oracles nothing is
counted, nothing is written, and both catalogs are unchanged. -/
theorem enrich_write_iff_witness :
    ((mainDaemon "" (fun _ => none) [⟨"a", "u", none, none⟩]).wrote = false
      ∧ (mainDaemon "" (fun _ => none) [⟨"a", "u", none, none⟩]).files
          = [⟨"a", "u", none, none⟩])
    ∧ ((mainHash (fun _ => none) [⟨"a", "u", none, none⟩]).wrote = false
      ∧ (mainHash (fun _ => none) [⟨"a", "u", none, none⟩]).files
          = [⟨"a", "u", none, none⟩]) :=
  ⟨(enrich_write_iff "" (fun _ => none) [⟨"a", "u", none, none⟩]
      (fun _ => none) [⟨"a", "u", none, none⟩]).2.1 (by decide),
   (enrich_write_iff "" (fun _ => none) [⟨"a", "u", none, none⟩]
      (fun _ => none) [⟨"a", "u", none, none⟩]).2.2.2 (by decide)⟩

/-- C10: for an entry passing the OS filter, the daemon pass skips it with
no processing and no mutation exactly when its daemon_version is present,
non-empty and not "Error"-prefixed; the daemon_hash field plays no role, so
such an entry with no daemon_hash keeps none. -/
theorem daemon_skip_iff (osFilter : String)
    (oracle : DFile → Option (Option String × Option String)) (f : DFile)
    (hpass : osFilter = "" ∨ containsSub osFilter (toLowerStr f.file_name) = true) :
    ((stepDaemon osFilter oracle f = ⟨f, false, false⟩)
      ↔ validDV f.daemon_version = true)
    ∧ (validDV f.daemon_version = true → f.daemon_hash = none →
        (stepDaemon osFilter oracle f).entry.daemon_hash = none) := by
  have hfilter : (osFilter != ""
      && !(containsSub osFilter (toLowerStr f.file_name))) = false := by
    rcases hpass with h | h
    · rw [h]; rfl
    · simp [h]
  constructor
  · constructor
    · intro heq
      by_cases hv : validDV f.daemon_version = true
      · exact hv
      · exfalso
        have hv' := Bool.eq_false_iff.mpr hv
        simp only [stepDaemon, hfilter, Bool.false_eq_true, if_false, hv'] at heq
        revert heq
        cases horacle : oracle f with
        | none => intro heq; cases congrArg DaemonStep.consulted heq
        | some vh => intro heq; cases congrArg DaemonStep.consulted heq
    · intro hv
      simp [stepDaemon, hfilter, hv]
  · intro hv hnone
    have heq : stepDaemon osFilter oracle f = ⟨f, false, false⟩ := by
      simp [stepDaemon, hfilter, hv]
    rw [heq]
    exact hnone

/-- Witness for C10 at a concrete input: an entry with a valid
daemon_version and no daemon_hash is skipped unchanged and gains no hash. -/
theorem daemon_skip_iff_witness :
    (stepDaemon "" (fun _ => some (some "0.4.8.19", some "h"))
        ⟨"tor-expert-bundle-linux-x86_64.tar.gz", "u", some "0.4.8.14", none⟩
      = ⟨⟨"tor-expert-bundle-linux-x86_64.tar.gz", "u", some "0.4.8.14", none⟩,
          false, false⟩)
    ∧ (stepDaemon "" (fun _ => some (some "0.4.8.19", some "h"))
        ⟨"tor-expert-bundle-linux-x86_64.tar.gz", "u", some "0.4.8.14", none⟩).entry.daemon_hash
        = none :=
  ⟨(daemon_skip_iff "" (fun _ => some (some "0.4.8.19", some "h"))
      ⟨"tor-expert-bundle-linux-x86_64.tar.gz", "u", some "0.4.8.14", none⟩
      (Or.inl rfl)).1.mpr (by decide),
   (daemon_skip_iff "" (fun _ => some (some "0.4.8.19", some "h"))
      ⟨"tor-expert-bundle-linux-x86_64.tar.gz", "u", some "0.4.8.14", none⟩
      (Or.inl rfl)).2 (by decide) rfl⟩

end TorVersions
